import Mathlib

/-!
Verification of the co-investment network pipeline implemented in `app.py`.

The development shallowly embeds the algorithmic slice of the program:
record filtering by year and investor name, per-investor statistics
aggregation, co-investment pair generation, graph construction,
two-stage structural pruning, hover-text truncation, node sizing, and
the callback-level null guard.  Python strings are modelled as Lean
`String`s, with `strip`, `lower`, `split` and substring search
implemented over the underlying character lists so that all
definitions are executable and kernel-evaluable.
-/

namespace CoInvest

/-- Removes leading whitespace characters; models the left half of Python
`str.strip()`. -/
def stripL : List Char → List Char
  | [] => []
  | c :: t => if c.isWhitespace = true then stripL t else c :: t

/-- Removes trailing whitespace characters; models the right half of Python
`str.strip()`. -/
def dropTrail : List Char → List Char
  | [] => []
  | c :: t =>
    let t' := dropTrail t
    if t' = [] ∧ c.isWhitespace = true then [] else c :: t'

/-- Models Python `str.strip()`: removes leading and trailing whitespace. -/
def pyStrip (s : String) : String := String.mk (stripL (dropTrail s.toList))

/-- Models Python `str.lower()` (ASCII letters, as in the data at hand). -/
def pyLower (s : String) : String := String.mk (s.toList.map Char.toLower)

/-- Splits a character list at every occurrence of `sep`; a list with no
separator yields one chunk, and separators at the ends yield empty chunks.
Models Python `str.split(sep)` for a one-character separator. -/
def splitOnChar (sep : Char) : List Char → List (List Char)
  | [] => [[]]
  | c :: t =>
    match splitOnChar sep t with
    | [] => [[]]
    | cur :: rest => if c = sep then [] :: cur :: rest else (c :: cur) :: rest

/-- `pat` occurs at the start of `hay`. -/
def subAt : List Char → List Char → Bool
  | [], _ => true
  | _ :: _, [] => false
  | p :: ps, h :: hs => p == h && subAt ps hs

/-- `pat` occurs somewhere inside `hay`. -/
def hasSub (pat : List Char) : List Char → Bool
  | [] => pat.isEmpty
  | c :: hs => subAt pat (c :: hs) || hasSub pat hs

/-- The metacharacters of Python's `re` module.  A pattern avoiding all of
them compiles to a regex that matches exactly its own literal text. -/
def reMeta : List Char := ".^$*+?[]\\|()\x7b\x7d".toList

/-- The pattern contains no `re` metacharacter, so Python matches it as a
literal (and compiling it cannot raise `re.error`). -/
def regexFree (pat : String) : Bool :=
  pat.toList.all (fun c => decide (c ∉ reMeta))

/-- Models `Series.str.contains(pat, case=False, na=False)` on the domain of
`regexFree` patterns: pandas compiles the pattern with `regex=True`, and a
metacharacter-free pattern under `re.IGNORECASE` matches a field exactly
when its literal text occurs case-insensitively, i.e. a case-insensitive
substring test.  Patterns containing metacharacters (full regex semantics,
and the `re.error` raised by an invalid pattern such as a lone
parenthesis) are outside this model: every theorem about the investor
filter therefore carries a `regexFree` hypothesis, and concrete inputs
use metacharacter-free filters only. -/
def containsCI (hay pat : String) : Bool :=
  hasSub (pyLower pat).toList (pyLower hay).toList

/-- A raw money cell: a numeric value, a string cell, or a missing/NaN cell
(`pd.isna` true). -/
inductive MoneyVal where
  | missing : MoneyVal
  | num : ℚ → MoneyVal
  | str : String → MoneyVal
  deriving DecidableEq

/-- One row of the investments table, as the pipeline reads it: the three
metadata columns (absent metadata renders as the `"n/a"` placeholder via
`row.get`), the parsed year of `Announced Date` (`none` when
`pd.to_datetime` coerced it to `NaT`), the raw money cell, and the raw
comma-separated `Investor Names` string (already `fillna('')`). -/
structure Record where
  transactionName : Option String
  organizationName : Option String
  fundingStage : Option String
  year : Option Int
  moneyRaised : MoneyVal
  investorNames : String
  deriving DecidableEq

/-- The digits of `l` read as a natural number (base 10). -/
def digitsVal (l : List Char) : Nat :=
  l.foldl (fun n c => 10 * n + (c.toNat - 48)) 0

/-- Models Python `float()` on plain decimal literals (optional sign, digits,
at most one decimal point); other forms (exponents, `inf`, `nan`,
underscores) are treated as unconvertible, matching how the pipeline only
ever meets plain decimal strings. -/
def parseNum (s : String) : Option ℚ :=
  let t := (pyStrip s).toList
  let sb : ℚ × List Char :=
    match t with
    | '-' :: r => (-1, r)
    | '+' :: r => (1, r)
    | _ => (1, t)
  match splitOnChar '.' sb.2 with
  | [ip] =>
    if ip ≠ [] ∧ ip.all Char.isDigit then some (sb.1 * digitsVal ip) else none
  | [ip, fp] =>
    if (ip ≠ [] ∨ fp ≠ []) ∧ ip.all Char.isDigit ∧ fp.all Char.isDigit then
      some (sb.1 * ((digitsVal ip : ℚ) + (digitsVal fp : ℚ) / (10 : ℚ) ^ fp.length))
    else none
  | _ => none

/-- `val.strip().lower() in ["n/a", "na", ""]` (app.py line 63). -/
def isNA (s : String) : Bool :=
  let t := pyLower (pyStrip s)
  decide (t = "n/a") || decide (t = "na") || decide (t = "")

/-- The money contribution of one raw cell (app.py lines 62-69): NaN/missing
cells and the literal "n/a"/"na"/"" strings become `0.0`; otherwise
`float(val)`, with conversion failures also becoming `0.0`. -/
def moneyOf : MoneyVal → ℚ
  | .missing => 0
  | .num q => q
  | .str s => if isNA s = true then 0 else (parseNum s).getD 0

/-- The date-range test (app.py lines 50-53): a record passes iff its
announced-date year parsed and lies in `[startYear, endYear]`; `NaT` rows
compare false. -/
def yearOk (sy ey : Int) (r : Record) : Bool :=
  match r.year with
  | none => false
  | some y => decide (sy ≤ y) && decide (y ≤ ey)

/-- RecordFilter (app.py lines 50-56): restrict to the year range, then, when
`investor_filter != "All"`, to rows whose `Investor Names` contains the
filter as a case-insensitive substring.  Faithful to line 56 on
`regexFree` filters (see `containsCI`); filters with regex
metacharacters behave differently in the program and are excluded from
the theorems below. -/
def filterRecords (records : List Record) (sy ey : Int) (investorFilter : String) :
    List Record :=
  let byDate := records.filter (yearOk sy ey)
  if investorFilter = "All" then byDate
  else byDate.filter (fun r => containsCI r.investorNames investorFilter)

/-- The trimmed investor list of a record, guarded by the truthiness test
`if row['Investor Names']:` (app.py lines 71-73 and 89-90): the empty raw
string yields no investors, any other string is split on commas and each
segment stripped (empty segments are kept, as in the source). -/
def investorList (r : Record) : List String :=
  if r.investorNames = "" then []
  else (splitOnChar ',' r.investorNames.toList).map (fun part => pyStrip (String.mk part))

/-- The per-investor statistics row (app.py line 76). -/
structure Stats where
  rounds : Nat
  money : ℚ
  transactions : List String
  deriving DecidableEq

/-- The dict value a fresh key starts from (app.py line 76). -/
def emptyStats : Stats := ⟨0, 0, []⟩

/-- One aggregation step for one investor occurrence (app.py lines 77-84). -/
def bump (money : ℚ) (td : String) (s : Stats) : Stats :=
  { rounds := s.rounds + 1
    money := s.money + money
    transactions := s.transactions ++ [td] }

/-- The insertion-ordered dictionary `investor_info`, as an association
list. -/
abbrev StatsMap := List (String × Stats)

/-- Dictionary lookup. -/
def findStats : StatsMap → String → Option Stats
  | [], _ => none
  | (k, v) :: rest, n => if k = n then some v else findStats rest n

/-- `investor_info[inv]` update (app.py lines 75-84): create the entry if
absent (at the end, preserving dict insertion order), then bump it. -/
def addInv : StatsMap → String → ℚ → String → StatsMap
  | [], inv, money, td => [(inv, bump money td emptyStats)]
  | (k, s) :: rest, inv, money, td =>
    if k = inv then (k, bump money td s) :: rest
    else (k, s) :: addInv rest inv money td

/-- The hover-text detail string (app.py lines 79-83). -/
def transactionDetail (r : Record) : String :=
  r.transactionName.getD "n/a" ++ " | " ++ r.organizationName.getD "n/a" ++ " | " ++
    r.fundingStage.getD "n/a"

/-- The body of the aggregation loop for one record (app.py lines 60-84):
bump every occurrence of an investor name in the record's trimmed list. -/
def aggStep (m : StatsMap) (r : Record) : StatsMap :=
  (investorList r).foldl
    (fun m' inv => addInv m' inv (moneyOf r.moneyRaised) (transactionDetail r)) m

/-- InvestorAggregator (app.py lines 59-84): walk the filtered records in
order; for each occurrence of an investor name in a record's trimmed list,
bump that name's rounds, money and transaction log. -/
def aggregate (records : List Record) : StatsMap :=
  records.foldl aggStep []

/-- `investor_info.get(n, {"rounds": 0})["rounds"]` (app.py line 103). -/
def roundsOf (m : StatsMap) (n : String) : Nat :=
  match findStats m n with
  | some s => s.rounds
  | none => 0

/-- The aggregated money of an investor (0 when absent). -/
def moneyAggOf (m : StatsMap) (n : String) : ℚ :=
  match findStats m n with
  | some s => s.money
  | none => 0

/-- `create_co_investment_pairs` (app.py lines 31-42): all `(i, j)` pairs with
`i < j` in list order, each component stripped, kept only when both
components are non-empty.  Duplicate names are not excluded. -/
def create_co_investment_pairs : List String → List (String × String)
  | [] => []
  | x :: rest =>
    rest.filterMap
      (fun y =>
        if pyStrip x ≠ "" ∧ pyStrip y ≠ "" then some (pyStrip x, pyStrip y) else none)
      ++ create_co_investment_pairs rest

/-- The concatenated pair list over all filtered records
(app.py lines 87-91). -/
def coInvestments (records : List Record) : List (String × String) :=
  records.foldl (fun acc r => acc ++ create_co_investment_pairs (investorList r)) []

/-- The `networkx.Graph` the pipeline builds: insertion-ordered node list and
edge list; edges are undirected and deduplicated on insertion. -/
structure Graph where
  nodes : List String
  edges : List (String × String)
  deriving DecidableEq

/-- Two stored edges represent the same unordered pair. -/
def sameEdge (e f : String × String) : Bool :=
  (e.1 == f.1 && e.2 == f.2) || (e.1 == f.2 && e.2 == f.1)

/-- Registers a node if new (networkx keeps first-insertion order). -/
def addNode (G : Graph) (n : String) : Graph :=
  if n ∈ G.nodes then G else { G with nodes := G.nodes ++ [n] }

/-- Inserts the edge `(a, b)` unless an edge for the same unordered pair is
already present (a `networkx.Graph` is simple: re-adding an edge is a
no-op). -/
def addEdgeRaw (G : Graph) (a b : String) : Graph :=
  if G.edges.any (fun e => sameEdge e (a, b)) then G
  else { G with edges := G.edges ++ [(a, b)] }

/-- `Graph.add_edge a b`: registers both endpoints, then inserts the
deduplicated edge. -/
def addEdge (G : Graph) (a b : String) : Graph :=
  addEdgeRaw (addNode (addNode G a) b) a b

/-- `G = nx.Graph(); G.add_edges_from(co_investments)`
(app.py lines 94-95). -/
def buildGraph (records : List Record) : Graph :=
  (coInvestments records).foldl (fun g e => addEdge g e.1 e.2) ⟨[], []⟩

/-- `networkx` degree: number of incident edges, a self-loop counting
twice. -/
def degree (G : Graph) (n : String) : Nat :=
  (G.edges.map (fun e => (if e.1 = n then 1 else 0) + (if e.2 = n then 1 else 0))).sum

/-- `G.remove_nodes_from S`: drops the listed nodes and every edge touching
one of them. -/
def removeNodes (G : Graph) (S : List String) : Graph :=
  { nodes := G.nodes.filter (fun n => decide (n ∉ S))
    edges := G.edges.filter (fun e => decide (e.1 ∉ S ∧ e.2 ∉ S)) }

/-- StructuralFilter stage 1 (app.py lines 97-99): the removal list is
computed from the degrees of the *input* graph, once, and then removed in
one shot — degrees are not recomputed after removals. -/
def stage1 (G : Graph) (minDegree : Int) : Graph :=
  removeNodes G (G.nodes.filter (fun n => decide ((degree G n : Int) < minDegree)))

/-- StructuralFilter stage 2 (app.py lines 102-104): drop surviving nodes
whose aggregated rounds (0 when the node has no stats entry) fall below
`min_rounds`. -/
def stage2 (G : Graph) (info : StatsMap) (minRounds : Int) : Graph :=
  removeNodes G (G.nodes.filter (fun n => decide ((roundsOf info n : Int) < minRounds)))

/-- `list(dict.fromkeys(l))`: deduplication preserving first-seen order
(app.py line 149). -/
def dedupFirst (l : List String) : List String :=
  l.foldl (fun acc s => if s ∈ acc then acc else acc ++ [s]) []

/-- The rendered hover transaction log (app.py lines 149-151): deduplicate,
then, when more than 3 entries remain, keep the first 3 and append the
`"..."` truncation marker. -/
def hoverTransactions (txs : List String) : List String :=
  if 3 < (dedupFirst txs).length then (dedupFirst txs).take 3 ++ ["..."]
  else dedupFirst txs

/-- Node size (app.py lines 156-159): `5 + 2 * rounds`, defaulting rounds to
1 when the node has no stats entry. -/
def nodeSize (info : StatsMap) (n : String) : Int :=
  5 + 2 * (match findStats info n with
    | some s => (s.rounds : Int)
    | none => 1)

/-- The observable content of the figure `generate_network_figure` returns:
either the no-survivors marker figure carrying its reason title, or a
network figure determined by the pruned graph and the stats map (the
layout, traces and styling are rendering detail carrying no further
pipeline state). -/
inductive Figure where
  | blank : Figure
  | titled : String → Figure
  | network : Graph → StatsMap → Figure
  deriving DecidableEq

/-- `generate_network_figure` (app.py lines 48-110): filter records,
aggregate stats, build the graph, prune by degree then by rounds, and
either return the titled empty marker or the network figure. -/
def generate_network_figure (records : List Record) (sy ey md mr : Int)
    (investorFilter : String) : Figure :=
  let filtered := filterRecords records sy ey investorFilter
  let info := aggregate filtered
  let G2 := stage2 (stage1 (buildGraph filtered) md) info mr
  if G2.nodes.length = 0 then
    Figure.titled "No investors meet the minimum requirements for this time period."
  else Figure.network G2 info

/-- `update_graph` (app.py lines 367-372): if any of the four numeric
parameters is `None`, return a bare `go.Figure()` (modelled `Figure.blank`);
otherwise swap the years if needed and run the pipeline.  A `None`
`investor_perspective` is not guarded: `investor_filter != "All"` is then
true and `Series.str.contains(None)` raises a `TypeError`, modelled as the
`none` result. -/
def update_graph (records : List Record) (investorPerspective : Option String)
    (startYear endYear minDegree minRounds : Option Int) : Option Figure :=
  match startYear, endYear, minDegree, minRounds with
  | some sy, some ey, some md, some mr =>
    match investorPerspective with
    | some inv =>
      let p := if ey < sy then (ey, sy) else (sy, ey)
      some (generate_network_figure records p.1 p.2 md mr inv)
    | none => none
  | _, _, _, _ => some Figure.blank

/-! ### Concrete inputs used by the example-level claims -/

/-- A record with the given investor-names field, an in-range year, and no
money or metadata. -/
def mkRec (names : String) : Record :=
  { transactionName := none
    organizationName := none
    fundingStage := none
    year := some 2024
    moneyRaised := .missing
    investorNames := names }

/-- Two records producing the 3-node path A–B–C. -/
def pathRecords : List Record := [mkRec "A, B", mkRec "B, C"]

/-- The graph of the path A–B–C. -/
def pathGraph : Graph := buildGraph pathRecords

/-- A record listing the same trimmed investor name twice. -/
def recXX : Record := mkRec "X, X"

/-- A record for the lone investor Bob. -/
def recBob : Record := mkRec "Bob"

/-- A record whose investor-names field ends in a comma, so its trimmed
split contains an empty segment. -/
def recTrailingComma : Record := mkRec "A,"

/-- A record for one investor with a given money cell. -/
def mkMoneyRec (v : MoneyVal) : Record :=
  { mkRec "SoloInv" with moneyRaised := v }

/-- The five records of the money-aggregation example: raised amounts
`[100, "n/a", "", None, "50"]` for the same investor. -/
def moneyRecords : List Record :=
  [mkMoneyRec (.num 100), mkMoneyRec (.str "n/a"), mkMoneyRec (.str ""),
   mkMoneyRec .missing, mkMoneyRec (.str "50")]

/-! ### Stripping is idempotent -/

theorem stripL_stripL (l : List Char) : stripL (stripL l) = stripL l := by
  induction l with
  | nil => rfl
  | cons c t ih =>
    by_cases h : c.isWhitespace = true
    · simp [stripL, h, ih]
    · simp [stripL, h]

theorem dropTrail_dropTrail (l : List Char) : dropTrail (dropTrail l) = dropTrail l := by
  induction l with
  | nil => rfl
  | cons c t ih =>
    by_cases h : dropTrail t = [] ∧ c.isWhitespace = true
    · simp [dropTrail, h]
    · have h2 : dropTrail (c :: t) = c :: dropTrail t := by
        simp only [dropTrail, if_neg h]
      rw [h2]
      simp only [dropTrail, ih]
      rw [if_neg h]

theorem dropTrail_stripL (l : List Char) (h : dropTrail l = l) :
    dropTrail (stripL l) = stripL l := by
  induction l with
  | nil => rfl
  | cons c t ih =>
    simp only [dropTrail] at h
    by_cases hc : dropTrail t = [] ∧ c.isWhitespace = true
    · rw [if_pos hc] at h
      exact absurd h (by simp)
    · rw [if_neg hc] at h
      have ht : dropTrail t = t := by
        injection h
      by_cases hw : c.isWhitespace = true
      · rw [stripL, if_pos hw]
        exact ih ht
      · rw [stripL, if_neg hw, dropTrail, ht, if_neg]
        intro hco
        exact hc ⟨by rw [ht]; exact hco.1, hco.2⟩

theorem pyStrip_pyStrip (s : String) : pyStrip (pyStrip s) = pyStrip s := by
  show String.mk (stripL (dropTrail (stripL (dropTrail s.toList)))) =
    String.mk (stripL (dropTrail s.toList))
  rw [dropTrail_stripL _ (dropTrail_dropTrail s.toList), stripL_stripL]

/-- Members of a record's trimmed investor list are already stripped. -/
theorem pyStrip_of_mem_investorList {r : Record} {x : String}
    (hx : x ∈ investorList r) : pyStrip x = x := by
  unfold investorList at hx
  split at hx
  · exact absurd hx (List.not_mem_nil x)
  · obtain ⟨part, _, rfl⟩ := List.mem_map.mp hx
    exact pyStrip_pyStrip _

/-! ### The stats dictionary -/

theorem findStats_addInv (m : StatsMap) (inv : String) (money : ℚ) (td : String)
    (X : String) :
    findStats (addInv m inv money td) X =
      if X = inv then some (bump money td ((findStats m inv).getD emptyStats))
      else findStats m X := by
  induction m with
  | nil =>
    by_cases h : X = inv
    · subst h; simp [addInv, findStats]
    · have h' : ¬inv = X := fun e => h e.symm
      simp [addInv, findStats, h, h']
  | cons kv rest ih =>
    obtain ⟨k, s⟩ := kv
    by_cases hk : k = inv
    · subst hk
      by_cases hX : X = k
      · subst hX; simp [addInv, findStats]
      · have hX' : ¬k = X := fun e => hX e.symm
        simp [addInv, findStats, hX, hX']
    · by_cases hX : k = X
      · subst hX
        simp [addInv, findStats, hk]
      · simp [addInv, findStats, hk, hX, ih]

theorem roundsOf_addInv (m : StatsMap) (inv : String) (money : ℚ) (td : String)
    (X : String) :
    roundsOf (addInv m inv money td) X =
      roundsOf m X + if X = inv then 1 else 0 := by
  by_cases h : X = inv
  · subst h
    cases hf : findStats m X <;>
      simp [roundsOf, findStats_addInv, hf, bump, emptyStats]
  · simp [roundsOf, findStats_addInv, h]

theorem moneyAggOf_addInv (m : StatsMap) (inv : String) (money : ℚ) (td : String)
    (X : String) :
    moneyAggOf (addInv m inv money td) X =
      moneyAggOf m X + if X = inv then money else 0 := by
  by_cases h : X = inv
  · subst h
    cases hf : findStats m X <;>
      simp [moneyAggOf, findStats_addInv, hf, bump, emptyStats]
  · simp [moneyAggOf, findStats_addInv, h]

theorem roundsOf_addList (l : List String) (m : StatsMap) (money : ℚ) (td : String)
    (X : String) :
    roundsOf (l.foldl (fun m' inv => addInv m' inv money td) m) X =
      roundsOf m X + l.count X := by
  induction l generalizing m with
  | nil => simp
  | cons i t ih =>
    rw [List.foldl_cons, ih, roundsOf_addInv]
    by_cases h : X = i
    · subst h; simp [List.count_cons_self]; omega
    · rw [List.count_cons_of_ne h]; simp [h]

theorem moneyAggOf_addList (l : List String) (m : StatsMap) (money : ℚ) (td : String)
    (X : String) :
    moneyAggOf (l.foldl (fun m' inv => addInv m' inv money td) m) X =
      moneyAggOf m X + (l.count X : ℚ) * money := by
  induction l generalizing m with
  | nil => simp
  | cons i t ih =>
    rw [List.foldl_cons, ih, moneyAggOf_addInv]
    by_cases h : X = i
    · subst h; simp [List.count_cons_self]; ring
    · rw [List.count_cons_of_ne h]; simp [h]

theorem roundsOf_aggStep (m : StatsMap) (r : Record) (X : String) :
    roundsOf (aggStep m r) X = roundsOf m X + (investorList r).count X :=
  roundsOf_addList _ _ _ _ _

theorem moneyAggOf_aggStep (m : StatsMap) (r : Record) (X : String) :
    moneyAggOf (aggStep m r) X =
      moneyAggOf m X + ((investorList r).count X : ℚ) * moneyOf r.moneyRaised :=
  moneyAggOf_addList _ _ _ _ _

theorem roundsOf_aggAux (records : List Record) (m : StatsMap) (X : String) :
    roundsOf (records.foldl aggStep m) X =
      roundsOf m X + (records.map (fun r => (investorList r).count X)).sum := by
  induction records generalizing m with
  | nil => simp
  | cons r t ih => rw [List.foldl_cons, ih, roundsOf_aggStep]; simp; omega

theorem moneyAggOf_aggAux (records : List Record) (m : StatsMap) (X : String) :
    moneyAggOf (records.foldl aggStep m) X =
      moneyAggOf m X +
        (records.map (fun r => ((investorList r).count X : ℚ) * moneyOf r.moneyRaised)).sum := by
  induction records generalizing m with
  | nil => simp
  | cons r t ih => rw [List.foldl_cons, ih, moneyAggOf_aggStep]; simp; ring

theorem roundsOf_aggregate (records : List Record) (X : String) :
    roundsOf (aggregate records) X =
      (records.map (fun r => (investorList r).count X)).sum := by
  have h := roundsOf_aggAux records [] X
  simpa [aggregate, roundsOf, findStats] using h

theorem moneyAggOf_aggregate (records : List Record) (X : String) :
    moneyAggOf (aggregate records) X =
      (records.map (fun r => ((investorList r).count X : ℚ) * moneyOf r.moneyRaised)).sum := by
  have h := moneyAggOf_aggAux records [] X
  simpa [aggregate, moneyAggOf, findStats] using h

/-- A property preserved by every step of a fold holds of its result. -/
theorem foldl_preserve {α β : Type} (P : β → Prop) (step : β → α → β)
    (hstep : ∀ b a, P b → P (step b a)) :
    ∀ (l : List α) (b : β), P b → P (l.foldl step b) := by
  intro l
  induction l with
  | nil => intro b hb; exact hb
  | cons a t ih => intro b hb; exact ih (step b a) (hstep b a hb)

/-- Every entry of the aggregated stats map has at least one round: entries
are only ever created or updated through `bump`. -/
theorem aggregate_rounds_pos (records : List Record) (X : String) (s : Stats)
    (h : findStats (aggregate records) X = some s) : 1 ≤ s.rounds := by
  have key : ∀ Y t, findStats (aggregate records) Y = some t → 1 ≤ t.rounds := by
    refine foldl_preserve (fun m => ∀ Y t, findStats m Y = some t → 1 ≤ t.rounds)
      aggStep ?_ records [] (by intro Y t ht; cases ht)
    intro m r hm
    refine foldl_preserve (fun m' => ∀ Y t, findStats m' Y = some t → 1 ≤ t.rounds)
      _ ?_ (investorList r) m hm
    intro m' inv hm' Y t ht
    rw [findStats_addInv] at ht
    split at ht
    · cases ht; simp [bump]
    · exact hm' Y t ht
  exact key X s h

/-- A name occurring in the trimmed list of a record of the input has a
positive aggregated round count. -/
theorem roundsOf_pos_of_occurs {records : List Record} {r : Record} {inv : String}
    (hr : r ∈ records) (hinv : inv ∈ investorList r) :
    1 ≤ roundsOf (aggregate records) inv := by
  rw [roundsOf_aggregate]
  have hcount : 0 < (investorList r).count inv := List.count_pos_iff.mpr hinv
  have hmem : (investorList r).count inv ∈
      records.map (fun r' => (investorList r').count inv) :=
    List.mem_map.mpr ⟨r, hr, rfl⟩
  have := List.single_le_sum (l := records.map (fun r' => (investorList r').count inv))
    (fun x _ => Nat.zero_le x) _ hmem
  omega

/-- A positive aggregated round count means the stats entry exists and
carries exactly that count. -/
theorem findStats_of_roundsOf_pos {m : StatsMap} {inv : String}
    (h : 1 ≤ roundsOf m inv) :
    ∃ s, findStats m inv = some s ∧ s.rounds = roundsOf m inv := by
  cases hf : findStats m inv with
  | none => simp [roundsOf, hf] at h
  | some s => exact ⟨s, rfl, by simp [roundsOf, hf]⟩

/-- The aggregated stats map has an entry for a name exactly when the name
occurs in the trimmed investor list of some input record. -/
theorem findStats_isSome_iff (records : List Record) (inv : String) :
    (findStats (aggregate records) inv).isSome = true ↔
      ∃ r ∈ records, inv ∈ investorList r := by
  constructor
  · intro h
    obtain ⟨s, hs⟩ := Option.isSome_iff_exists.mp h
    have hpos : 1 ≤ s.rounds := aggregate_rounds_pos records inv s hs
    have hrounds : 1 ≤ roundsOf (aggregate records) inv := by
      unfold roundsOf; rw [hs]; exact hpos
    rw [roundsOf_aggregate] at hrounds
    by_contra hno
    push_neg at hno
    have hzero : (records.map (fun r => (investorList r).count inv)).sum = 0 := by
      refine List.sum_eq_zero ?_
      intro x hx
      obtain ⟨r, hr, rfl⟩ := List.mem_map.mp hx
      exact List.count_eq_zero.mpr (hno r hr)
    omega
  · rintro ⟨r, hr, hinv⟩
    obtain ⟨s, hs, _⟩ := findStats_of_roundsOf_pos (roundsOf_pos_of_occurs hr hinv)
    rw [hs]; rfl

/-! ### Pair generation and the graph -/

/-- Where a generated pair's components come from: stripped, non-empty
entries of the input list. -/
theorem mem_pairs (l : List String) (a b : String)
    (h : (a, b) ∈ create_co_investment_pairs l) :
    (∃ x ∈ l, pyStrip x = a) ∧ (∃ y ∈ l, pyStrip y = b) ∧ a ≠ "" ∧ b ≠ "" := by
  induction l with
  | nil => cases h
  | cons x rest ih =>
    rw [create_co_investment_pairs, List.mem_append] at h
    rcases h with h | h
    · obtain ⟨y, hy, hf⟩ := List.mem_filterMap.mp h
      split at hf
      · rename_i hcond
        cases hf
        exact ⟨⟨x, List.mem_cons_self x rest, rfl⟩,
          ⟨y, List.mem_cons_of_mem x hy, rfl⟩, hcond.1, hcond.2⟩
      · cases hf
    · obtain ⟨⟨x', hx', ha⟩, ⟨y', hy', hb⟩, hna, hnb⟩ := ih h
      exact ⟨⟨x', List.mem_cons_of_mem x hx', ha⟩,
        ⟨y', List.mem_cons_of_mem x hy', hb⟩, hna, hnb⟩

/-- No self-pair arises from a duplicate-free list of already-stripped
names. -/
theorem pairs_no_self (l : List String) (hnd : l.Nodup)
    (hfix : ∀ x ∈ l, pyStrip x = x) (a : String) :
    (a, a) ∉ create_co_investment_pairs l := by
  induction l with
  | nil => exact List.not_mem_nil _
  | cons x rest ih =>
    intro h
    rw [create_co_investment_pairs, List.mem_append] at h
    rcases h with h | h
    · obtain ⟨y, hy, hf⟩ := List.mem_filterMap.mp h
      split at hf
      · simp only [Option.some.injEq, Prod.mk.injEq] at hf
        obtain ⟨ha1, ha2⟩ := hf
        have hx : x = a := by rw [← hfix x (List.mem_cons_self x rest)]; exact ha1
        have hy2 : y = a := by rw [← hfix y (List.mem_cons_of_mem x hy)]; exact ha2
        exact (List.nodup_cons.mp hnd).1 (by rwa [hx.trans hy2.symm])
      · cases hf
    · exact ih (List.nodup_cons.mp hnd).2
        (fun z hz => hfix z (List.mem_cons_of_mem x hz)) h

/-- Membership in the concatenated pair list over the records. -/
theorem mem_coInvestments {records : List Record} {e : String × String}
    (h : e ∈ coInvestments records) :
    ∃ r ∈ records, e ∈ create_co_investment_pairs (investorList r) := by
  unfold coInvestments at h
  suffices key : ∀ (l : List Record) (acc : List (String × String)),
      e ∈ l.foldl (fun acc r => acc ++ create_co_investment_pairs (investorList r)) acc →
      e ∈ acc ∨ ∃ r ∈ l, e ∈ create_co_investment_pairs (investorList r) by
    rcases key records [] h with h' | h'
    · cases h'
    · exact h'
  intro l
  induction l with
  | nil => intro acc h'; exact Or.inl h'
  | cons r t ih =>
    intro acc h'
    rcases ih _ h' with h'' | ⟨r', hr', he⟩
    · rcases List.mem_append.mp h'' with h3 | h3
      · exact Or.inl h3
      · exact Or.inr ⟨r, List.mem_cons_self r t, h3⟩
    · exact Or.inr ⟨r', List.mem_cons_of_mem r hr', he⟩

theorem nodes_addNode {G : Graph} {m n : String} (h : n ∈ (addNode G m).nodes) :
    n ∈ G.nodes ∨ n = m := by
  unfold addNode at h
  split at h
  · exact Or.inl h
  · rcases List.mem_append.mp h with h' | h'
    · exact Or.inl h'
    · exact Or.inr (List.mem_singleton.mp h')

theorem nodes_addEdgeRaw (G : Graph) (a b : String) :
    (addEdgeRaw G a b).nodes = G.nodes := by
  unfold addEdgeRaw
  split <;> rfl

theorem edges_addEdgeRaw {G : Graph} {a b : String} {e : String × String}
    (h : e ∈ (addEdgeRaw G a b).edges) : e ∈ G.edges ∨ e = (a, b) := by
  unfold addEdgeRaw at h
  split at h
  · exact Or.inl h
  · rcases List.mem_append.mp h with h' | h'
    · exact Or.inl h'
    · exact Or.inr (List.mem_singleton.mp h')

theorem edges_addNode (G : Graph) (m : String) : (addNode G m).edges = G.edges := by
  unfold addNode
  split <;> rfl

theorem nodes_addEdge {G : Graph} {a b n : String} (h : n ∈ (addEdge G a b).nodes) :
    n ∈ G.nodes ∨ n = a ∨ n = b := by
  unfold addEdge at h
  rw [nodes_addEdgeRaw] at h
  rcases nodes_addNode h with h'' | h''
  · rcases nodes_addNode h'' with h3 | h3
    · exact Or.inl h3
    · exact Or.inr (Or.inl h3)
  · exact Or.inr (Or.inr h'')

theorem edges_addEdge {G : Graph} {a b : String} {e : String × String}
    (h : e ∈ (addEdge G a b).edges) : e ∈ G.edges ∨ e = (a, b) := by
  unfold addEdge at h
  rcases edges_addEdgeRaw h with h' | h'
  · rw [edges_addNode, edges_addNode] at h'
    exact Or.inl h'
  · exact Or.inr h'

theorem nodes_buildFold {l : List (String × String)} {G : Graph} {n : String}
    (h : n ∈ ((l.foldl (fun g e => addEdge g e.1 e.2) G).nodes)) :
    n ∈ G.nodes ∨ ∃ e ∈ l, n = e.1 ∨ n = e.2 := by
  induction l generalizing G with
  | nil => exact Or.inl h
  | cons e t ih =>
    rcases ih h with h' | ⟨f, hf, hn⟩
    · rcases nodes_addEdge h' with h'' | h''
      · exact Or.inl h''
      · exact Or.inr ⟨e, List.mem_cons_self e t, h''⟩
    · exact Or.inr ⟨f, List.mem_cons_of_mem e hf, hn⟩

theorem edges_buildFold {l : List (String × String)} {G : Graph} {e : String × String}
    (h : e ∈ ((l.foldl (fun g p => addEdge g p.1 p.2) G).edges)) :
    e ∈ G.edges ∨ e ∈ l := by
  induction l generalizing G with
  | nil => exact Or.inl h
  | cons p t ih =>
    rcases ih h with h' | h'
    · rcases edges_addEdge h' with h'' | h''
      · exact Or.inl h''
      · exact Or.inr (h'' ▸ List.mem_cons_self p t)
    · exact Or.inr (List.mem_cons_of_mem p h')

/-- Every node of the built graph is an endpoint of a generated pair. -/
theorem nodes_buildGraph {records : List Record} {n : String}
    (h : n ∈ (buildGraph records).nodes) :
    ∃ e ∈ coInvestments records, n = e.1 ∨ n = e.2 := by
  unfold buildGraph at h
  rcases nodes_buildFold h with h' | h'
  · cases h'
  · exact h'

/-- Every edge of the built graph is a generated pair. -/
theorem edges_buildGraph {records : List Record} {e : String × String}
    (h : e ∈ (buildGraph records).edges) : e ∈ coInvestments records := by
  unfold buildGraph at h
  rcases edges_buildFold h with h' | h'
  · cases h'
  · exact h'

theorem nodes_removeNodes {G : Graph} {S : List String} {n : String}
    (h : n ∈ (removeNodes G S).nodes) : n ∈ G.nodes := by
  unfold removeNodes at h
  exact (List.mem_filter.mp h).1

/-! ### Counting generated pairs -/

theorem filterMap_none {α β : Type} (f : α → Option β) (l : List α)
    (h : ∀ y ∈ l, f y = none) : l.filterMap f = [] := by
  induction l with
  | nil => rfl
  | cons y t ih =>
    rw [List.filterMap_cons, h y (List.mem_cons_self y t)]
    exact ih fun z hz => h z (List.mem_cons_of_mem y hz)

theorem length_filterMap_countP {α β : Type} (f : α → Option β) (p : α → Bool)
    (l : List α) (h : ∀ y ∈ l, (f y).isSome = p y) :
    (l.filterMap f).length = l.countP p := by
  induction l with
  | nil => rfl
  | cons y t ih =>
    have hy := h y (List.mem_cons_self y t)
    have ht := ih fun z hz => h z (List.mem_cons_of_mem y hz)
    rw [List.filterMap_cons, List.countP_cons]
    cases hf : f y with
    | none =>
      rw [hf] at hy
      simp only [Option.isSome_none] at hy
      simp [ht, ← hy]
    | some b =>
      rw [hf] at hy
      simp only [Option.isSome_some] at hy
      simp [List.length_cons, ht, ← hy]

/-- The number of pairs the generator produces from a list containing `k`
non-empty (after stripping) names is `k` choose 2. -/
theorem pairs_length_choose (l : List String) :
    (create_co_investment_pairs l).length =
      Nat.choose (l.countP (fun x => decide (pyStrip x ≠ ""))) 2 := by
  induction l with
  | nil => rfl
  | cons x rest ih =>
    rw [create_co_investment_pairs, List.length_append, ih, List.countP_cons]
    by_cases hx : pyStrip x = ""
    · have h0 : (rest.filterMap (fun y =>
          if pyStrip x ≠ "" ∧ pyStrip y ≠ "" then some (pyStrip x, pyStrip y)
          else none)) = [] := by
        refine filterMap_none _ _ fun y _ => ?_
        rw [if_neg]
        intro hcond
        exact hcond.1 hx
      simp [h0, hx]
    · have hlen : (rest.filterMap (fun y =>
          if pyStrip x ≠ "" ∧ pyStrip y ≠ "" then some (pyStrip x, pyStrip y)
          else none)).length = rest.countP (fun y => decide (pyStrip y ≠ "")) := by
        refine length_filterMap_countP _ _ _ fun y _ => ?_
        by_cases hy : pyStrip y = "" <;> simp [hx, hy]
      rw [hlen, if_pos (show decide (pyStrip x ≠ "") = true from by
        simp only [decide_eq_true_eq]; exact hx)]
      rw [Nat.choose_succ_succ, Nat.choose_one_right]

/-! ### Edge deduplication -/

theorem pairwise_addEdge {G : Graph} {a b : String}
    (h : G.edges.Pairwise (fun e f => sameEdge e f = false)) :
    (addEdge G a b).edges.Pairwise (fun e f => sameEdge e f = false) := by
  unfold addEdge addEdgeRaw
  split
  · rw [edges_addNode, edges_addNode]
    exact h
  · rename_i hany
    rw [edges_addNode, edges_addNode] at hany ⊢
    rw [List.pairwise_append]
    refine ⟨h, List.pairwise_singleton _ _, ?_⟩
    intro e he f hf
    rw [List.mem_singleton] at hf
    subst hf
    rw [Bool.not_eq_true, List.any_eq_false] at hany
    simpa using hany e he

theorem edges_pairwise_buildGraph (records : List Record) :
    (buildGraph records).edges.Pairwise (fun e f => sameEdge e f = false) := by
  unfold buildGraph
  exact foldl_preserve (fun G => G.edges.Pairwise (fun e f => sameEdge e f = false))
    (fun (g : Graph) (e : String × String) => addEdge g e.1 e.2)
    (fun G e hG => pairwise_addEdge hG) (coInvestments records) ⟨[], []⟩
    List.Pairwise.nil

/-! ### Hover-text deduplication -/

theorem dedupAux_spec (l : List String) :
    ∀ acc : List String, acc.Nodup →
      (l.foldl (fun acc s => if s ∈ acc then acc else acc ++ [s]) acc).Nodup ∧
      (∀ x, x ∈ l.foldl (fun acc s => if s ∈ acc then acc else acc ++ [s]) acc ↔
        x ∈ acc ∨ x ∈ l) ∧
      ∃ t, l.foldl (fun acc s => if s ∈ acc then acc else acc ++ [s]) acc = acc ++ t ∧
        t.Sublist l := by
  induction l with
  | nil =>
    intro acc hacc
    exact ⟨hacc, fun x => by simp, [], by simp, List.nil_sublist _⟩
  | cons a t ih =>
    intro acc hacc
    rw [List.foldl_cons]
    by_cases ha : a ∈ acc
    · simp only [if_pos ha]
      obtain ⟨h1, h2, t', ht', hs⟩ := ih acc hacc
      refine ⟨h1, ?_, t', ht', hs.cons a⟩
      intro x
      rw [h2 x]
      constructor
      · rintro (hx | hx)
        · exact Or.inl hx
        · exact Or.inr (List.mem_cons_of_mem a hx)
      · rintro (hx | hx)
        · exact Or.inl hx
        · rcases List.mem_cons.mp hx with rfl | hx'
          · exact Or.inl ha
          · exact Or.inr hx'
    · simp only [if_neg ha]
      have hacc' : (acc ++ [a]).Nodup := by
        rw [List.nodup_append]
        refine ⟨hacc, List.nodup_singleton a, ?_⟩
        intro x hx hx'
        rw [List.mem_singleton] at hx'
        subst hx'
        exact ha hx
      obtain ⟨h1, h2, t', ht', hs⟩ := ih (acc ++ [a]) hacc'
      refine ⟨h1, ?_, a :: t', ?_, hs.cons₂ a⟩
      · intro x
        rw [h2 x]
        simp only [List.mem_append, List.mem_singleton, List.mem_cons]
        tauto
      · rw [ht', List.append_assoc]
        rfl

theorem dedupFirst_nodup (l : List String) : (dedupFirst l).Nodup :=
  (dedupAux_spec l [] List.nodup_nil).1

theorem mem_dedupFirst (l : List String) (x : String) :
    x ∈ dedupFirst l ↔ x ∈ l := by
  have h := (dedupAux_spec l [] List.nodup_nil).2.1 x
  simpa [dedupFirst] using h

theorem dedupFirst_sublist (l : List String) : (dedupFirst l).Sublist l := by
  obtain ⟨t, ht, hs⟩ := (dedupAux_spec l [] List.nodup_nil).2.2
  have : dedupFirst l = t := by simpa [dedupFirst] using ht
  rw [this]
  exact hs

/-! ### The record filter and money parsing -/

theorem yearOk_iff (sy ey : Int) (r : Record) :
    yearOk sy ey r = true ↔ ∃ y, r.year = some y ∧ sy ≤ y ∧ y ≤ ey := by
  cases hy : r.year <;> simp [yearOk, hy]

theorem parseNum_fifty : parseNum "50" = some 50 := by
  have h : parseNum "50" = some ((1 : ℚ) * (digitsVal ['5', '0'] : ℚ)) := rfl
  rw [h, show digitsVal ['5', '0'] = 50 from by decide]
  norm_num

/-! ### The claims -/

/-- C1: StructuralFilter stage 1 is single-pass: a node survives exactly when
its degree in the input graph (computed once, before any removal) reaches
`minDegree`; the filter is a pure function of its input (same input, same
output); on the 3-node path A–B–C with `minDegree = 2`, node B (degree 2)
survives while A and C (degree 1) are removed — even though B's degree
after the removals is 0, no second pass happens. -/
theorem stage1_single_pass_spec :
    (∀ (G : Graph) (md : Int) (n : String),
        n ∈ (stage1 G md).nodes ↔ n ∈ G.nodes ∧ md ≤ (degree G n : Int)) ∧
    (∀ (records : List Record) (md : Int),
        stage1 (buildGraph records) md = stage1 (buildGraph records) md) ∧
    (stage1 pathGraph 2).nodes = ["B"] ∧
    degree pathGraph "A" = 1 ∧ degree pathGraph "B" = 2 ∧ degree pathGraph "C" = 1 ∧
    degree (stage1 pathGraph 2) "B" = 0 := by
  refine ⟨?_, fun _ _ => rfl, by decide, by decide, by decide, by decide, by decide⟩
  intro G md n
  unfold stage1 removeNodes
  simp only [List.mem_filter, decide_eq_true_eq]
  constructor
  · rintro ⟨hn, hns⟩
    refine ⟨hn, ?_⟩
    by_contra hlt
    push_neg at hlt
    exact hns ⟨hn, hlt⟩
  · rintro ⟨hn, hle⟩
    exact ⟨hn, fun h2 => absurd h2.2 (not_lt.mpr hle)⟩

/-- C2's counterexample: a record listing the same trimmed name twice makes
the pair generator emit the self-pair `("X", "X")`, and the graph builder
inserts it as a self-loop edge. -/
theorem self_pair_produced_for_duplicate_name :
    ("X", "X") ∈ coInvestments [recXX] ∧ ("X", "X") ∈ (buildGraph [recXX]).edges := by
  decide

/-- C2 (amended): no self-pair is generated and no self-loop edge is built
provided no record's trimmed investor list repeats a name; a record that
does list the same non-empty trimmed name twice produces the self-pair and
the self-loop (see the counterexample). -/
theorem no_self_loop_of_nodup_investors (records : List Record)
    (h : ∀ r ∈ records, (investorList r).Nodup) (a : String) :
    (a, a) ∉ coInvestments records ∧ (a, a) ∉ (buildGraph records).edges := by
  have hco : (a, a) ∉ coInvestments records := by
    intro hmem
    obtain ⟨r, hr, hp⟩ := mem_coInvestments hmem
    exact pairs_no_self (investorList r) (h r hr)
      (fun x hx => pyStrip_of_mem_investorList hx) a hp
  exact ⟨hco, fun he => hco (edges_buildGraph he)⟩

/-- C2's witness: the duplicate-free path records generate no self-loop
at A. -/
theorem no_self_loop_witness :
    ("A", "A") ∉ coInvestments pathRecords ∧
      ("A", "A") ∉ (buildGraph pathRecords).edges :=
  no_self_loop_of_nodup_investors pathRecords (by decide) "A"

/-- C3's counterexample: the sentinel comparison is `!= "All"`,
case-sensitively, so the lowercase string "all" is treated as an ordinary
filter: it drops a record for Bob (whose name does not contain "all")
that the capitalized sentinel keeps.  Both "all" and "All" are free of
regex metacharacters, so the modelled behaviour is the program's. -/
theorem lowercase_all_sentinel_fails :
    filterRecords [recBob] 2020 2025 "all" = [] ∧
    filterRecords [recBob] 2020 2025 "All" = [recBob] ∧
    recBob.year = some 2024 := by
  refine ⟨by decide, by decide, rfl⟩

/-- C3 (amended): for an investor parameter free of regex metacharacters
(pandas compiles the parameter with `regex=True`, so only a literal
pattern reduces to a literal match — see `regexFree` and `containsCI`),
RecordFilter keeps a record iff its announced date parses to a year in
`[startYear, endYear]` inclusive, and, when the parameter differs from
the exact string "All" (case-sensitively — the lowercase "all" is *not*
a sentinel), the record's investor-name field contains the parameter as
a case-insensitive substring. -/
theorem filterRecords_mem_iff (records : List Record) (sy ey : Int) (f : String)
    (r : Record) (hreg : regexFree f = true) :
    r ∈ filterRecords records sy ey f ↔
      r ∈ records ∧ (∃ y, r.year = some y ∧ sy ≤ y ∧ y ≤ ey) ∧
        (f ≠ "All" → containsCI r.investorNames f = true) := by
  unfold filterRecords
  by_cases hf : f = "All"
  · subst hf
    simp [List.mem_filter, yearOk_iff]
  · simp [hf, List.mem_filter, yearOk_iff, and_assoc]
    tauto

/-- C3's witness: Bob's record passes its own metacharacter-free name as
filter. -/
theorem filterRecords_mem_iff_witness :
    recBob ∈ filterRecords [recBob] 2020 2025 "Bob" :=
  (filterRecords_mem_iff [recBob] 2020 2025 "Bob" recBob (by decide)).mpr
    ⟨List.mem_singleton.mpr rfl, ⟨2024, rfl, by decide, by decide⟩, fun _ => by decide⟩

/-- C4's counterexample: a single record listing "X, X" gives X an
aggregated round count of 2, although only 1 record's trimmed list
contains X — rounds count occurrences, not records. -/
theorem rounds_counts_occurrences_cex :
    roundsOf (aggregate [recXX]) "X" = 2 ∧
    ([recXX].filter (fun r => decide ("X" ∈ investorList r))).length = 1 := by
  decide

/-- C4 (amended): `InvestorStats.rounds` for X equals the number of
*occurrences* of X across the trimmed investor lists of the filtered
records (a record listing X twice contributes twice). -/
theorem rounds_eq_sum_occurrences (records : List Record) (X : String) :
    roundsOf (aggregate records) X =
      (records.map (fun r => (investorList r).count X)).sum :=
  roundsOf_aggregate records X

/-- C5: money aggregation normalizes rather than fails: missing/NaN cells,
the literal "n/a"/"na"/"" strings (case-insensitive, after trimming), and
unconvertible strings contribute 0; every other value contributes its
numeric conversion; the amounts `[100, "n/a", "", None, "50"]` for one
investor aggregate to exactly 150. -/
theorem money_normalization_spec :
    moneyOf .missing = 0 ∧
    (∀ q, moneyOf (.num q) = q) ∧
    (∀ s, isNA s = true → moneyOf (.str s) = 0) ∧
    (∀ s, isNA s = false → moneyOf (.str s) = (parseNum s).getD 0) ∧
    moneyAggOf (aggregate moneyRecords) "SoloInv" = 150 := by
  refine ⟨rfl, fun q => rfl, fun s hs => by simp [moneyOf, hs],
    fun s hs => by simp [moneyOf, hs], ?_⟩
  rw [moneyAggOf_aggregate]
  have hIL : ∀ v, investorList (mkMoneyRec v) = ["SoloInv"] := fun _ => rfl
  have hm : ∀ v, (mkMoneyRec v).moneyRaised = v := fun _ => rfl
  simp only [moneyRecords, List.map_cons, List.map_nil, List.sum_cons, List.sum_nil,
    hIL, hm]
  have hcount : (["SoloInv"].count "SoloInv") = 1 := by decide
  simp only [hcount]
  have h2 : moneyOf (MoneyVal.str "n/a") = 0 := by
    simp [moneyOf, show isNA "n/a" = true from by decide]
  have h3 : moneyOf (MoneyVal.str "") = 0 := by
    simp [moneyOf, show isNA "" = true from by decide]
  have h5 : moneyOf (MoneyVal.str "50") = 50 := by
    simp [moneyOf, show isNA "50" = false from by decide, parseNum_fifty]
  rw [show moneyOf (MoneyVal.num 100) = 100 from rfl, h2, h3,
    show moneyOf MoneyVal.missing = 0 from rfl, h5]
  norm_num

/-- C5's witness: an "n/a"-style cell (here with spacing and casing)
contributes 0. -/
theorem money_normalization_witness : moneyOf (.str " NA ") = 0 :=
  money_normalization_spec.2.2.1 " NA " (by decide)

/-- C6: a list whose stripped entries contain `k` non-empty names yields
exactly `k(k-1)/2` candidate pairs (both in general and for a record's
trimmed investor list), and the edges of the built graph never contain two
entries representing the same unordered pair. -/
theorem pair_count_and_edge_dedup :
    (∀ l : List String,
        (create_co_investment_pairs l).length =
          (l.countP (fun x => decide (pyStrip x ≠ ""))) *
            ((l.countP (fun x => decide (pyStrip x ≠ ""))) - 1) / 2) ∧
    (∀ r : Record,
        (create_co_investment_pairs (investorList r)).length =
          ((investorList r).countP (fun x => decide (x ≠ ""))) *
            (((investorList r).countP (fun x => decide (x ≠ ""))) - 1) / 2) ∧
    (∀ records : List Record,
        (buildGraph records).edges.Pairwise (fun e f => sameEdge e f = false)) := by
  have hgen : ∀ l : List String,
      (create_co_investment_pairs l).length =
        (l.countP (fun x => decide (pyStrip x ≠ ""))) *
          ((l.countP (fun x => decide (pyStrip x ≠ ""))) - 1) / 2 := by
    intro l
    rw [pairs_length_choose, Nat.choose_two_right]
  refine ⟨hgen, ?_, edges_pairwise_buildGraph⟩
  intro r
  have hco : (investorList r).countP (fun x => decide (pyStrip x ≠ "")) =
      (investorList r).countP (fun x => decide (x ≠ "")) := by
    refine List.countP_congr ?_
    intro x hx
    rw [pyStrip_of_mem_investorList hx]
  rw [hgen (investorList r), hco]

/-- C7's counterexample: one record whose investor field is "A," (an empty
trailing segment) creates a stats entry under the empty-string key with
one round — aggregation does not drop empty names. -/
theorem empty_name_stats_entry_created :
    (findStats (aggregate [recTrailingComma]) "").isSome = true ∧
    roundsOf (aggregate [recTrailingComma]) "" = 1 := by
  decide

/-- C7 (amended): during aggregation, names that are empty after trimming
are *not* dropped: a stats entry exists for a name (the empty string
included) exactly when the name occurs in the trimmed investor list of
some filtered record with a non-empty investor field. -/
theorem stats_key_iff_occurs (records : List Record) (inv : String) :
    (findStats (aggregate records) inv).isSome = true ↔
      ∃ r ∈ records, inv ∈ investorList r :=
  findStats_isSome_iff records inv

/-- C7's witness: the entry for the non-empty name A of the same record. -/
theorem stats_key_iff_occurs_witness :
    (findStats (aggregate [recTrailingComma]) "A").isSome = true :=
  (stats_key_iff_occurs [recTrailingComma] "A").mpr
    ⟨recTrailingComma, List.mem_singleton.mpr rfl, by decide⟩

/-- C8's counterexample: with a null `investor_perspective` and all four
numeric parameters present, the callback does not short-circuit to any
empty-result marker — the guard only covers the numeric parameters, and
execution reaches `str.contains(None)`, which raises. -/
theorem null_investor_not_guarded :
    update_graph [] none (some 2020) (some 2025) (some 1) (some 1) = none := rfl

/-- C8 (amended): if any of the four numeric parameters (startYear, endYear,
minDegree, minRounds) is null, `update_graph` short-circuits before any
filtering runs and returns the bare empty figure, which carries no reason
string; a null investorFilter is not guarded. -/
theorem numeric_null_guard_blank (records : List Record) (inv : Option String)
    (sy ey md mr : Option Int)
    (h : sy = none ∨ ey = none ∨ md = none ∨ mr = none) :
    update_graph records inv sy ey md mr = some Figure.blank := by
  cases sy with
  | none => rfl
  | some a =>
    cases ey with
    | none => rfl
    | some b =>
      cases md with
      | none => rfl
      | some c =>
        cases mr with
        | none => rfl
        | some d => rcases h with h | h | h | h <;> exact absurd h (by simp)

/-- C8's witness: a null start year yields the bare empty figure. -/
theorem numeric_null_guard_blank_witness :
    update_graph [] (some "All") none (some 2025) (some 1) (some 1) =
      some Figure.blank :=
  numeric_null_guard_blank [] (some "All") none (some 2025) (some 1) (some 1)
    (Or.inl rfl)

/-- C9: the hover transaction log deduplicates the transactions preserving
first-seen order (a duplicate-free, order-preserving sublist with the same
members); the truncation marker is appended, keeping only the first 3
entries, exactly when more than 3 distinct entries remain; 5 identical
detail strings yield exactly 1 entry and no marker. -/
theorem hover_transactions_spec :
    (∀ l : List String, (dedupFirst l).Nodup) ∧
    (∀ (l : List String) (x : String), x ∈ dedupFirst l ↔ x ∈ l) ∧
    (∀ l : List String, (dedupFirst l).Sublist l) ∧
    (∀ l : List String, 3 < (dedupFirst l).length →
        hoverTransactions l = (dedupFirst l).take 3 ++ ["..."]) ∧
    (∀ l : List String, (dedupFirst l).length ≤ 3 →
        hoverTransactions l = dedupFirst l) ∧
    hoverTransactions ["T | O | Seed", "T | O | Seed", "T | O | Seed",
      "T | O | Seed", "T | O | Seed"] = ["T | O | Seed"] := by
  refine ⟨dedupFirst_nodup, mem_dedupFirst, dedupFirst_sublist, ?_, ?_, by decide⟩
  · intro l h
    unfold hoverTransactions
    rw [if_pos h]
  · intro l h
    unfold hoverTransactions
    rw [if_neg (by omega)]

/-- C9's witness: four distinct entries trigger the marker. -/
theorem hover_transactions_witness :
    hoverTransactions ["a", "b", "c", "d"] =
      (dedupFirst ["a", "b", "c", "d"]).take 3 ++ ["..."] :=
  hover_transactions_spec.2.2.2.1 ["a", "b", "c", "d"] (by decide)

/-- C10: every node of the built graph has a stats entry with at least one
round (both structures derive from the same filtered records), so neither
the 0-default of the stage-2 rounds filter nor the 1-default of the
node-size computation is ever taken for a graph node. -/
theorem graph_nodes_have_stats :
    (∀ (records : List Record) (n : String), n ∈ (buildGraph records).nodes →
        ∃ s, findStats (aggregate records) n = some s ∧ 1 ≤ s.rounds) ∧
    (∀ (records : List Record) (md mr : Int) (n : String),
        n ∈ (stage2 (stage1 (buildGraph records) md) (aggregate records) mr).nodes →
        (findStats (aggregate records) n).isSome = true) := by
  have main : ∀ (records : List Record) (n : String), n ∈ (buildGraph records).nodes →
      ∃ s, findStats (aggregate records) n = some s ∧ 1 ≤ s.rounds := by
    intro records n hn
    obtain ⟨e, he, hend⟩ := nodes_buildGraph hn
    obtain ⟨e1, e2⟩ := e
    obtain ⟨r, hr, hp⟩ := mem_coInvestments he
    obtain ⟨⟨x, hx, hxa⟩, ⟨y, hy, hyb⟩, -, -⟩ := mem_pairs _ _ _ hp
    have hmem : n ∈ investorList r := by
      rcases hend with rfl | rfl
      · rw [← hxa, pyStrip_of_mem_investorList hx]
        exact hx
      · rw [← hyb, pyStrip_of_mem_investorList hy]
        exact hy
    obtain ⟨s, hs, hrounds⟩ := findStats_of_roundsOf_pos (roundsOf_pos_of_occurs hr hmem)
    exact ⟨s, hs, by rw [hrounds]; exact roundsOf_pos_of_occurs hr hmem⟩
  refine ⟨main, ?_⟩
  intro records md mr n hn
  have hb : n ∈ (buildGraph records).nodes :=
    nodes_removeNodes (nodes_removeNodes hn)
  obtain ⟨s, hs, -⟩ := main records n hb
  rw [hs]
  rfl

/-- C10's witness: node A of the path records has a stats entry with a
positive round count. -/
theorem graph_nodes_have_stats_witness :
    ∃ s, findStats (aggregate pathRecords) "A" = some s ∧ 1 ≤ s.rounds :=
  graph_nodes_have_stats.1 pathRecords "A" (by decide)

end CoInvest
